import Mathlib

/-!
Verification of the zoo repository's canonical content hashing
(`src/zoo/hash.py`) and cell synchronization protocol
(`src/zoo/cli/cell.py`): commit, pull, diff, add, init.

Records are JSON-like documents: mappings from string keys to values,
where a value is a string, an integer, a boolean, null, a sequence of
values, or a nested mapping.  The helper module `zoo.utils` (providing
`ordered`, `flat` and `deep_get`) is not part of the sources available
here; those three functions are modelled from the specification and
are marked as such in their doc comments.  Everything else is a direct
embedding of the Python source.
-/

/-- A JSON-like value as manipulated by the repository: the Python data
model of values produced by `json.loads` (strings, numbers, booleans,
null, lists, dicts).  Numbers are modelled as integers. -/
inductive Val : Type where
  | null : Val
  | bool (b : Bool) : Val
  | num (n : Int) : Val
  | str (s : String) : Val
  | arr (xs : List Val) : Val
  | obj (kvs : List (String × Val)) : Val

/-- Structural induction for `Val`, with list memberships made explicit
for the two nested cases. -/
theorem valInd (P : Val → Prop)
    (h0 : P .null) (h1 : ∀ b, P (.bool b)) (h2 : ∀ n, P (.num n))
    (h3 : ∀ s, P (.str s))
    (h4 : ∀ xs, (∀ x ∈ xs, P x) → P (.arr xs))
    (h5 : ∀ kvs, (∀ kv ∈ kvs, P kv.2) → P (.obj kvs)) : ∀ v, P v
  | .null => h0
  | .bool b => h1 b
  | .num n => h2 n
  | .str s => h3 s
  | .arr xs => h4 xs (fun x hx => valInd P h0 h1 h2 h3 h4 h5 x)
  | .obj kvs => h5 kvs (fun kv hkv => valInd P h0 h1 h2 h3 h4 h5 kv.2)
termination_by v => sizeOf v
decreasing_by
  · have := List.sizeOf_lt_of_mem hx
    simp only [Val.arr.sizeOf_spec]
    omega
  · have h := List.sizeOf_lt_of_mem hkv
    have h2 : sizeOf kv = 1 + sizeOf kv.1 + sizeOf kv.2 := by
      rcases kv with ⟨a, b⟩
      simp
    simp only [Val.obj.sizeOf_spec]
    omega

mutual

/-- Boolean equality test for values. -/
def valBEq : Val → Val → Bool
  | .null, .null => true
  | .bool a, .bool b => a = b
  | .num a, .num b => a = b
  | .str a, .str b => a = b
  | .arr xs, .arr ys => valBEqL xs ys
  | .obj kvs, .obj lvs => valBEqKV kvs lvs
  | _, _ => false

/-- Boolean equality test for lists of values. -/
def valBEqL : List Val → List Val → Bool
  | [], [] => true
  | x :: xs, y :: ys => valBEq x y && valBEqL xs ys
  | _, _ => false

/-- Boolean equality test for lists of mapping entries. -/
def valBEqKV : List (String × Val) → List (String × Val) → Bool
  | [], [] => true
  | (k, v) :: kvs, (k', v') :: lvs => k = k' && (valBEq v v' && valBEqKV kvs lvs)
  | _, _ => false

end

theorem valBEq_iff : ∀ a b : Val, valBEq a b = true ↔ a = b := by
  intro a
  induction a using valInd with
  | h0 => intro b; cases b <;> simp [valBEq]
  | h1 x => intro b; cases b <;> simp [valBEq]
  | h2 x => intro b; cases b <;> simp [valBEq]
  | h3 x => intro b; cases b <;> simp [valBEq]
  | h4 xs ih =>
      intro b
      cases b <;> simp only [valBEq, Val.arr.injEq] <;> try simp
      rename_i ys
      induction xs generalizing ys with
      | nil => cases ys <;> simp [valBEqL]
      | cons x xs ihl =>
          cases ys with
          | nil => simp [valBEqL]
          | cons y ys =>
              have hx := ih x (List.mem_cons_self x xs)
              have hrest := ihl (fun z hz => ih z (List.mem_cons_of_mem x hz)) ys
              simp [valBEqL, Bool.and_eq_true, hx y, hrest]
  | h5 kvs ih =>
      intro b
      cases b <;> simp only [valBEq, Val.obj.injEq] <;> try simp
      rename_i lvs
      induction kvs generalizing lvs with
      | nil => cases lvs <;> simp [valBEqKV]
      | cons kv kvs ihl =>
          cases lvs with
          | nil => rcases kv with ⟨k, v⟩; simp [valBEqKV]
          | cons lv lvs =>
              rcases kv with ⟨k, v⟩
              rcases lv with ⟨k', v'⟩
              have hv := ih ⟨k, v⟩ (List.mem_cons_self _ kvs)
              have hrest := ihl (fun z hz => ih z (List.mem_cons_of_mem _ hz)) lvs
              simp [valBEqKV, Bool.and_eq_true, hv v', hrest, and_assoc]

instance : DecidableEq Val := fun a b => decidable_of_iff _ (valBEq_iff a b)

/-- A record (one document of a cell): a Python dict in insertion order,
a list of key/value pairs. -/
abbrev Rec : Type := List (String × Val)

/-- The canonical ordered form produced by `ordered`: dicts have become
sorted lists of `(key, value)` tuples and lists have been sorted, so the
only composite forms left are lists and key/value tuples. -/
inductive CVal : Type where
  | null : CVal
  | bool (b : Bool) : CVal
  | num (n : Int) : CVal
  | str (s : String) : CVal
  | arr (xs : List CVal) : CVal
  | pair (k : String) (v : CVal) : CVal

/-- Structural induction for `CVal`, with list membership made explicit
for the nested list case. -/
theorem CvalInd (P : CVal → Prop)
    (h0 : P .null) (h1 : ∀ b, P (.bool b)) (h2 : ∀ n, P (.num n))
    (h3 : ∀ s, P (.str s))
    (h4 : ∀ xs, (∀ x ∈ xs, P x) → P (.arr xs))
    (h5 : ∀ k v, P v → P (.pair k v)) : ∀ v, P v
  | .null => h0
  | .bool b => h1 b
  | .num n => h2 n
  | .str s => h3 s
  | .arr xs => h4 xs (fun x hx => CvalInd P h0 h1 h2 h3 h4 h5 x)
  | .pair k v => h5 k v (CvalInd P h0 h1 h2 h3 h4 h5 v)
termination_by v => sizeOf v
decreasing_by
  · have := List.sizeOf_lt_of_mem hx
    simp only [CVal.arr.sizeOf_spec]
    omega
  · simp only [CVal.pair.sizeOf_spec]
    omega

/-- Three-way comparison induced by a linear order. -/
def cmpLin {α : Type} [LinearOrder α] (a b : α) : Ordering :=
  if a < b then .lt else if a = b then .eq else .gt

mutual

/-- Modelled from the spec: the total order on canonical values used by
`ordered`'s sorts ("a total order that treats heterogeneous types
consistently (numbers before strings before composite values)", and
"ordered does sort tuples as well" per the `hash_dict` doc string).
Values of distinct shapes compare by shape (null, then booleans, then
numbers, then strings, then lists, then tuples); values of the same
shape compare by their natural order, lists and tuples lexicographically. -/
def ccmp : CVal → CVal → Ordering
  | .null, .null => .eq
  | .null, _ => .lt
  | _, .null => .gt
  | .bool a, .bool b => cmpLin a b
  | .bool _, _ => .lt
  | _, .bool _ => .gt
  | .num a, .num b => cmpLin a b
  | .num _, _ => .lt
  | _, .num _ => .gt
  | .str a, .str b => cmpLin a b
  | .str _, _ => .lt
  | _, .str _ => .gt
  | .arr xs, .arr ys => ccmpL xs ys
  | .arr _, _ => .lt
  | _, .arr _ => .gt
  | .pair k v, .pair k' v' => (cmpLin k k').then (ccmp v v')

/-- Lexicographic comparison of lists of canonical values. -/
def ccmpL : List CVal → List CVal → Ordering
  | [], [] => .eq
  | [], _ :: _ => .lt
  | _ :: _, [] => .gt
  | x :: xs, y :: ys => (ccmp x y).then (ccmpL xs ys)

end

/-- The Boolean `≤` used when sorting canonical values. -/
def cle (a b : CVal) : Bool :=
  match ccmp a b with
  | .gt => false
  | _ => true

/-- The `≤` relation on canonical values, as a proposition. -/
def cleP (a b : CVal) : Prop := cle a b = true

instance : DecidableRel cleP := fun a b =>
  inferInstanceAs (Decidable (cle a b = true))

/-- Sorting a list of canonical values, as Python's `sorted` is used in
`zoo.utils.ordered`.  The order `cleP` is total and antisymmetric
(proved below), so a sorted rearrangement is unique and any correct
sorting algorithm computes the same list; insertion sort is used
here. -/
def sortC (l : List CVal) : List CVal := List.insertionSort cleP l

mutual

/-- Modelled from the spec: `zoo.utils.ordered` (module missing from the
sources).  Recursively transforms a record into a canonical ordered form:
a mapping becomes the list of `(key, ordered value)` pairs sorted by key
(tuples are sorted like any other value, so pairs with equal keys fall
back to comparing values), a sequence becomes the sorted list of its
ordered elements, and scalars are returned unchanged. -/
def ordered : Val → CVal
  | .null => .null
  | .bool b => .bool b
  | .num n => .num n
  | .str s => .str s
  | .arr xs => .arr (sortC (orderedL xs))
  | .obj kvs => .arr (sortC (orderedKV kvs))

/-- `ordered` mapped over the elements of a sequence. -/
def orderedL : List Val → List CVal
  | [] => []
  | x :: xs => ordered x :: orderedL xs

/-- `ordered` applied to the entries of a mapping, each entry becoming a
`(key, value)` tuple. -/
def orderedKV : List (String × Val) → List CVal
  | [] => []
  | (k, v) :: kvs => .pair k (ordered v) :: orderedKV kvs

end

/-- A primitive token of the flattened stream: a scalar leaf value. -/
inductive Tok : Type where
  | null : Tok
  | bool (b : Bool) : Tok
  | num (n : Int) : Tok
  | str (s : String) : Tok
deriving DecidableEq

mutual

/-- Modelled from the spec: `zoo.utils.flat` (module missing from the
sources).  Recursively walks the ordered canonical form and emits the
flat linear sequence of primitive leaf tokens in traversal order;
nested structure is erased. -/
def flat : CVal → List Tok
  | .null => [.null]
  | .bool b => [.bool b]
  | .num n => [.num n]
  | .str s => [.str s]
  | .arr xs => flatL xs
  | .pair k v => .str k :: flat v

/-- `flat` over the elements of a list, concatenated. -/
def flatL : List CVal → List Tok
  | [] => []
  | x :: xs => flat x ++ flatL xs

end

/-- Python's `str` on a primitive token (`str(i)` in `hash_dict`). -/
def tokStr : Tok → String
  | .null => "None"
  | .bool true => "True"
  | .bool false => "False"
  | .num n => toString n
  | .str s => s

/-- `zoo.hash.hash_dict` (src/zoo/hash.py lines 5-24): flattens the
ordered form of the document and feeds the UTF-8 string representation
of each token, in order, into an md5 hash.  md5 (from Python's hashlib,
external to the repository) is a fixed deterministic function of the
byte stream it is fed, so the digest is modelled by that byte stream
itself: the concatenation of the string representations of the tokens.
Two documents get the same md5 digest exactly when they feed the same
stream to the hash. -/
def hash_dict (d : Val) : String :=
  String.join ((flat (ordered d)).map tokStr)

/-! ## Record primitives (Python dict operations on documents) -/

/-- `d[k]` as a lookup: the value stored under key `k`, if present. -/
def lookupKey (k : String) : Rec → Option Val
  | [] => none
  | (k', v) :: d => if k' = k then some v else lookupKey k d

/-- `d[k] = v`: replace the value under `k` in place if the key is
present, otherwise append the new entry (Python dict insertion
order). -/
def setKey (k : String) (v : Val) : Rec → Rec
  | [] => [(k, v)]
  | (k', v') :: d => if k' = k then (k, v) :: d else (k', v') :: setKey k v d

/-- `d.pop(k)` / `del d[k]` (ignoring the returned value): drop the
entry under key `k`. -/
def removeKey (k : String) (d : Rec) : Rec :=
  d.filter (fun kv => kv.1 ≠ k)

/-- Removal of the two reserved fields before hashing: what `commit`
does by `d.pop('_id')` followed by `del d['md5']`, and what `pull`'s
lookup projection `{'_id': 0, 'md5': 0}` does to the stored record. -/
def stripMeta (d : Rec) : Rec :=
  removeKey "md5" (removeKey "_id" d)

/-- The digest of a record's content as recomputed by `pull` (and as
computed by `commit`): `hash_dict` of the record with `_id` and `md5`
removed. -/
def pullDigest (d : Rec) : String :=
  hash_dict (.obj (stripMeta d))

/-! ## The document store (pymongo collection), at its interface
boundary -/

/-- `find_one({'_id': idv})` on a cell: the first stored record whose
`_id` field holds exactly `idv`. -/
def findById : List Rec → Val → Option Rec
  | [], _ => none
  | r :: rs, idv =>
      if lookupKey "_id" r = some idv then some r else findById rs idv

/-- `find_one_and_replace({'_id': idv}, dNew)`: replace the first record
whose `_id` is `idv` with `dNew`. -/
def replaceById (idv : Val) (dNew : Rec) : List Rec → List Rec
  | [] => []
  | r :: rs =>
      if lookupKey "_id" r = some idv then dNew :: rs
      else r :: replaceById idv dNew rs

/-- Modelled from the spec (§6, the document-store collaborator, whose
code is the external pymongo library): `insert_one(d)` appends the
record to the cell, and fails with `DuplicateKeyError` when the
uniqueness constraint on `_id` is violated, i.e. when `d` carries an
`_id` equal to the `_id` of a stored record. -/
def insertOne (cell : List Rec) (d : Rec) : Except Unit (List Rec) :=
  match lookupKey "_id" d with
  | some idv => if (findById cell idv).isSome then .error () else .ok (cell ++ [d])
  | none => .ok (cell ++ [d])

/-! ## commit (src/zoo/cli/cell.py lines 150-217) -/

/-- The processing `commit` applies to one stored record `d`: pop `_id`
(a key lookup error if absent), delete any stale `md5`, compute a fresh
digest of what remains, reattach the digest and then `_id`, and read
`d['sequence']` to feed the minhash signature (a key lookup error if
the record has no `sequence` field).  Returns the record written to the
snapshot file, or `none` if a key lookup error is raised. -/
def commitRecord (d : Rec) : Option Rec :=
  match lookupKey "_id" d with
  | none => none
  | some idv =>
      let body := stripMeta d
      let out := setKey "_id" idv (setKey "md5" (.str (hash_dict (.obj body))) body)
      match lookupKey "sequence" out with
      | none => none
      | some _ => some out

/-- `commit` over a whole cell: process the stored records in order,
producing the snapshot (the list of lines written to the output file);
`none` if any record raises.  The store itself is never mutated. -/
def commit : List Rec → Option (List Rec)
  | [] => some []
  | d :: ds =>
      match commitRecord d with
      | none => none
      | some s =>
          match commit ds with
          | none => none
          | some rest => some (s :: rest)

/-! ## pull (src/zoo/cli/cell.py lines 230-279) -/

/-- The evolving state of a `pull` run: the cell's records plus the
three tallies `unchanged` (`nochange` in the source), `replaced` and
`inserted`. -/
structure PullState where
  cell : List Rec
  unchanged : Nat
  replaced : Nat
  inserted : Nat
deriving DecidableEq

/-- One iteration of `pull`'s loop on an incoming snapshot record
`dNew`: read `d_new['_id']` and `d_new['md5']` (key lookup error if
absent), look up the stored record by `_id` with `_id` and `md5`
projected away.  A missing record — or a stored record whose projection
is the empty document, which Python's truthiness test `if not d_old`
conflates with a missing one — takes the insert path (`insert_one`
raises an uncaught `DuplicateKeyError` in the latter case, because the
`_id` already exists).  Otherwise the stored record's digest is
recomputed and compared with `d_new['md5']`: equal means no mutation
and `nochange += 1`; different means the stored record is replaced
wholesale by `dNew` and `replaced += 1`. -/
def pullStep (st : PullState) (dNew : Rec) : Option PullState := do
  let idv ← lookupKey "_id" dNew
  let md5v ← lookupKey "md5" dNew
  match findById st.cell idv with
  | none =>
      some { st with cell := st.cell ++ [dNew], inserted := st.inserted + 1 }
  | some dOld =>
      let proj := stripMeta dOld
      if proj = [] then
        none
      else if md5v = .str (hash_dict (.obj proj)) then
        some { st with unchanged := st.unchanged + 1 }
      else
        some { st with cell := replaceById idv dNew st.cell,
                       replaced := st.replaced + 1 }

/-- `pull` over the lines of a snapshot file, threading the state; an
uncaught exception in any iteration aborts the run. -/
def pull (st : PullState) : List Rec → Option PullState
  | [] => some st
  | d :: ds =>
      match pullStep st d with
      | none => none
      | some st' => pull st' ds

/-! ## init (src/zoo/cli/cell.py lines 39-61) -/

/-- The processing `init` applies to one input line `d`: assign
`d['_id'] = str(uuid4())`, overwriting any `_id` the line carried. -/
def initRecord (u : String) (d : Rec) : Rec :=
  setKey "_id" (.str u) d

/-- `init` over the lines of an input file: each record gets a fresh
identifier drawn from the stream `uuids` and is inserted; the count of
insertions is reported.  An uncaught `DuplicateKeyError` (conceivable
only if a drawn identifier collides) aborts the run. -/
def init (uuids : Nat → String) (cell : List Rec) :
    List Rec → Nat → Option (List Rec × Nat)
  | [], inserted => some (cell, inserted)
  | d :: ds, inserted =>
      match insertOne cell (initRecord (uuids inserted) d) with
      | .ok cell' => init uuids cell' ds (inserted + 1)
      | .error _ => none

/-! ## add (src/zoo/cli/cell.py lines 77-130 and the legacy
src/zoo/cli_cell.py lines 12-29) -/

/-- The `primkey == '_id'` branch of `add`: try `insert_one` on each
line; a `DuplicateKeyError` is caught, counted as a duplicate, and the
loop continues with the next line. -/
def addById (cell : List Rec) : List Rec → Nat → Nat → List Rec × Nat × Nat
  | [], inserted, duplicates => (cell, inserted, duplicates)
  | d :: ds, inserted, duplicates =>
      match insertOne cell d with
      | .ok cell' => addById cell' ds (inserted + 1) duplicates
      | .error _ => addById cell ds inserted (duplicates + 1)

/-- Splitting a key path at the dots (`"genbank.a"` becomes
`["genbank", "a"]`). -/
def splitDots : List Char → List Char → List String
  | [], acc => [String.mk acc.reverse]
  | c :: cs, acc =>
      if c = '.' then String.mk acc.reverse :: splitDots cs []
      else splitDots cs (c :: acc)

/-- Modelled from the spec: `zoo.utils.deep_get` (module missing from
the sources) resolves a dotted key path such as `genbank.a` through
nested mappings, returning nothing when a component is absent or the
value being traversed is not a mapping. -/
def getPath : Val → List String → Option Val
  | v, [] => some v
  | .obj kvs, k :: rest => (lookupKey k kvs).bind (fun v => getPath v rest)
  | _, _ :: _ => none

/-- `deep_get(d, path)` on a record. -/
def deep_get (d : Rec) (path : String) : Option Val :=
  getPath (.obj d) (splitDots path.toList [])

/-- Modelled from the spec: `find_one({primkey: value})` against the
cell, where `value` is the result of a `deep_get`.  Per §4.2 a record
whose key path does not resolve to a value is treated as non-matching,
so a missing value matches nothing; a present value matches the first
stored record whose path resolves to the same value. -/
def find_one_pk (cell : List Rec) (pk : String) (q : Option Val) : Option Rec :=
  match q with
  | none => none
  | some v => cell.find? (fun r => deep_get r pk = some v)

/-- The `primkey != '_id'` branch of `add`: for each line, look up an
existing record by the configured key's value; a hit is counted as a
duplicate and skipped, otherwise the record is inserted (an uncaught
`DuplicateKeyError` from that insert aborts the run). -/
def addByKey (pk : String) (cell : List Rec) :
    List Rec → Nat → Nat → Option (List Rec × Nat × Nat)
  | [], inserted, duplicates => some (cell, inserted, duplicates)
  | d :: ds, inserted, duplicates =>
      if (find_one_pk cell pk (deep_get d pk)).isSome then
        addByKey pk cell ds inserted (duplicates + 1)
      else
        match insertOne cell d with
        | .ok cell' => addByKey pk cell' ds (inserted + 1) duplicates
        | .error _ => none

/-- The legacy `add` of src/zoo/cli_cell.py (lines 22-29): on the first
`DuplicateKeyError` it prints "Duplicate key, loading aborted." and
returns, abandoning the remaining lines; no duplicate tally is kept.
Returns the resulting cell and whether the run was aborted. -/
def add_legacy (cell : List Rec) : List Rec → List Rec × Bool
  | [] => (cell, false)
  | d :: ds =>
      match insertOne cell d with
      | .ok cell' => add_legacy cell' ds
      | .error _ => (cell, true)

/-! ## diff (src/zoo/cli/cell.py lines 343-369) -/

/-- `diff` over the lines of a snapshot file, parameterized by the
external DeepDiff collaborator `dd` (`DeepDiff(new, old,
ignore_order=True)`, with `none` standing for an empty diff): for each
incoming record `old`, read `old['_id']` (key lookup error if absent),
fetch the live record by `_id`, and when the computed delta is
non-empty emit it tagged with the `_id` as one output line.  The store
is only read (`find_one`), never written. -/
def diffOp {δ : Type} (dd : Option Rec → Rec → Option δ) (cell : List Rec) :
    List Rec → Option (List (Val × δ))
  | [] => some []
  | old :: rest =>
      match lookupKey "_id" old with
      | none => none
      | some idv =>
          match diffOp dd cell rest with
          | none => none
          | some restOut =>
              match dd (findById cell idv) old with
              | some d => some ((idv, d) :: restOut)
              | none => some restOut

/-! ## Permuted records: reordering of mapping entries and sequence
elements at any nesting depth -/

mutual

/-- `PermEq v w`: `w` is obtained from `v` by permuting the entries of
mappings and the elements of sequences, at any nesting depth. -/
inductive PermEq : Val → Val → Prop
  | null : PermEq .null .null
  | bool (b : Bool) : PermEq (.bool b) (.bool b)
  | num (n : Int) : PermEq (.num n) (.num n)
  | str (s : String) : PermEq (.str s) (.str s)
  | arr {xs ys : List Val} : PermL xs ys → PermEq (.arr xs) (.arr ys)
  | obj {kvs lvs : List (String × Val)} : PermKV kvs lvs →
      PermEq (.obj kvs) (.obj lvs)

/-- Permutation of sequence elements, each element itself possibly
permuted more deeply. -/
inductive PermL : List Val → List Val → Prop
  | nil : PermL [] []
  | cons {x y xs ys} : PermEq x y → PermL xs ys → PermL (x :: xs) (y :: ys)
  | swap (x y : Val) (xs : List Val) : PermL (x :: y :: xs) (y :: x :: xs)
  | trans {xs ys zs} : PermL xs ys → PermL ys zs → PermL xs zs

/-- Permutation of mapping entries, each entry's value itself possibly
permuted more deeply. -/
inductive PermKV : List (String × Val) → List (String × Val) → Prop
  | nil : PermKV [] []
  | cons {k v w kvs lvs} : PermEq v w → PermKV kvs lvs →
      PermKV ((k, v) :: kvs) ((k, w) :: lvs)
  | swap (kv lv : String × Val) (kvs : List (String × Val)) :
      PermKV (kv :: lv :: kvs) (lv :: kv :: kvs)
  | trans {kvs lvs mvs} : PermKV kvs lvs → PermKV lvs mvs → PermKV kvs mvs

end

/-! ## Lawfulness of the canonical order -/

theorem cmpLin_refl {α : Type} [LinearOrder α] (a : α) : cmpLin a a = .eq := by
  simp [cmpLin]

theorem cmpLin_eq_iff {α : Type} [LinearOrder α] {a b : α} :
    cmpLin a b = .eq ↔ a = b := by
  unfold cmpLin
  split_ifs with h1 h2
  · simp only [reduceCtorEq, false_iff]
    exact fun he => absurd he (ne_of_lt h1)
  · simp [h2]
  · simp [h2]

theorem cmpLin_lt_iff {α : Type} [LinearOrder α] {a b : α} :
    cmpLin a b = .lt ↔ a < b := by
  unfold cmpLin
  split_ifs with h1 h2
  · simp [h1]
  · simp [h2, lt_irrefl]
  · simp only [reduceCtorEq, false_iff]
    intro hc
    exact h1 hc

theorem cmpLin_swap {α : Type} [LinearOrder α] (a b : α) :
    cmpLin b a = (cmpLin a b).swap := by
  rcases lt_trichotomy a b with h | h | h
  · rw [cmpLin_lt_iff.mpr h]
    unfold cmpLin
    rw [if_neg (asymm h), if_neg (ne_of_gt h)]
    rfl
  · subst h
    rw [cmpLin_refl]
    rfl
  · rw [cmpLin_lt_iff.mpr h]
    unfold cmpLin
    rw [if_neg (asymm h), if_neg (ne_of_gt h)]
    rfl

theorem othen_eq_lt {o p : Ordering} :
    o.then p = .lt ↔ o = .lt ∨ (o = .eq ∧ p = .lt) := by
  cases o <;> simp [Ordering.then]

theorem othen_eq_eq {o p : Ordering} :
    o.then p = .eq ↔ o = .eq ∧ p = .eq := by
  cases o <;> simp [Ordering.then]

theorem othen_swap (o p : Ordering) :
    (o.then p).swap = o.swap.then p.swap := by
  cases o <;> cases p <;> rfl

theorem ccmp_refl : ∀ a : CVal, ccmp a a = .eq := by
  intro a
  induction a using CvalInd with
  | h0 => rfl
  | h1 b => simp [ccmp, cmpLin_refl]
  | h2 n => simp [ccmp, cmpLin_refl]
  | h3 s => simp [ccmp, cmpLin_refl]
  | h4 xs ih =>
      simp only [ccmp]
      induction xs with
      | nil => rfl
      | cons x xs ihl =>
          have hx := ih x (List.mem_cons_self x xs)
          have hrest := ihl (fun z hz => ih z (List.mem_cons_of_mem x hz))
          simp [ccmpL, hx, hrest, Ordering.then]
  | h5 k v ih => simp [ccmp, cmpLin_refl, ih, Ordering.then]

theorem ccmp_eq_of : ∀ a b : CVal, ccmp a b = .eq → a = b := by
  intro a
  induction a using CvalInd with
  | h0 => intro b; cases b <;> simp [ccmp]
  | h1 x => intro b; cases b <;> simp [ccmp, cmpLin_eq_iff]
  | h2 x => intro b; cases b <;> simp [ccmp, cmpLin_eq_iff]
  | h3 x => intro b; cases b <;> simp [ccmp, cmpLin_eq_iff]
  | h4 xs ih =>
      intro b
      cases b <;> simp only [ccmp, CVal.arr.injEq, reduceCtorEq] <;>
        try simp
      rename_i ys
      induction xs generalizing ys with
      | nil => cases ys <;> simp [ccmpL]
      | cons x xs ihl =>
          cases ys with
          | nil => simp [ccmpL]
          | cons y ys =>
              have hx := ih x (List.mem_cons_self x xs)
              have hrest := ihl (fun z hz => ih z (List.mem_cons_of_mem x hz)) ys
              simp only [ccmpL, othen_eq_eq, List.cons.injEq]
              rintro ⟨h1, h2⟩
              exact ⟨hx y h1, hrest h2⟩
  | h5 k v ih =>
      intro b
      cases b <;> simp only [ccmp, CVal.pair.injEq, reduceCtorEq] <;>
        try simp
      rename_i k' v'
      simp only [othen_eq_eq, cmpLin_eq_iff]
      rintro ⟨h1, h2⟩
      exact ⟨h1, ih v' h2⟩

theorem ccmp_swap : ∀ a b : CVal, ccmp b a = (ccmp a b).swap := by
  intro a
  induction a using CvalInd with
  | h0 => intro b; cases b <;> rfl
  | h1 x =>
      intro b
      cases b <;> try rfl
      simp only [ccmp]
      exact cmpLin_swap x _
  | h2 x =>
      intro b
      cases b <;> try rfl
      simp only [ccmp]
      exact cmpLin_swap x _
  | h3 x =>
      intro b
      cases b <;> try rfl
      simp only [ccmp]
      exact cmpLin_swap x _
  | h4 xs ih =>
      intro b
      cases b <;> try rfl
      rename_i ys
      simp only [ccmp]
      induction xs generalizing ys with
      | nil => cases ys <;> rfl
      | cons x xs ihl =>
          cases ys with
          | nil => rfl
          | cons y ys =>
              have hx := ih x (List.mem_cons_self x xs)
              have hrest := ihl (fun z hz => ih z (List.mem_cons_of_mem x hz)) ys
              simp [ccmpL, hx y, hrest, othen_swap]
  | h5 k v ih =>
      intro b
      cases b <;> try rfl
      rename_i k' v'
      simp only [ccmp]
      rw [cmpLin_swap k k', ih v', othen_swap]

theorem cmpLin_lt_trans {α : Type} [LinearOrder α] {a b c : α} :
    cmpLin a b = .lt → cmpLin b c = .lt → cmpLin a c = .lt := fun h1 h2 =>
  cmpLin_lt_iff.mpr (lt_trans (cmpLin_lt_iff.mp h1) (cmpLin_lt_iff.mp h2))

theorem ccmp_lt_trans : ∀ a b c : CVal,
    ccmp a b = .lt → ccmp b c = .lt → ccmp a c = .lt := by
  intro a
  induction a using CvalInd with
  | h0 => intro b c; cases b <;> cases c <;> simp_all [ccmp]
  | h1 x =>
      intro b c
      cases b <;> cases c <;> try simp_all [ccmp]
      exact fun h1 h2 => cmpLin_lt_trans h1 h2
  | h2 x =>
      intro b c
      cases b <;> cases c <;> try simp_all [ccmp]
      exact fun h1 h2 => cmpLin_lt_trans h1 h2
  | h3 x =>
      intro b c
      cases b <;> cases c <;> try simp_all [ccmp]
      exact fun h1 h2 => cmpLin_lt_trans h1 h2
  | h4 xs ih =>
      intro b c
      cases b <;> cases c <;> try simp_all [ccmp]
      rename_i ys zs
      try simp only [ccmp]
      induction xs generalizing ys zs with
      | nil => cases ys <;> cases zs <;> simp [ccmpL]
      | cons x xs ihl =>
          cases ys with
          | nil => simp [ccmpL]
          | cons y ys =>
              cases zs with
              | nil =>
                  intro _ h2
                  simp [ccmpL] at h2
              | cons z zs =>
                  intro h1 h2
                  have ihx := ih x (List.mem_cons_self x xs)
                  have ihrest := ihl (fun w hw => ih w (List.mem_cons_of_mem x hw))
                  simp only [ccmpL, othen_eq_lt] at h1 h2 ⊢
                  rcases h1 with hxy | ⟨hxy, hr1⟩ <;>
                    rcases h2 with hyz | ⟨hyz, hr2⟩
                  · exact Or.inl (ihx y z hxy hyz)
                  · have : y = z := ccmp_eq_of y z hyz
                    subst this
                    exact Or.inl hxy
                  · have : x = y := ccmp_eq_of x y hxy
                    subst this
                    exact Or.inl hyz
                  · have hxy' : x = y := ccmp_eq_of x y hxy
                    have hyz' : y = z := ccmp_eq_of y z hyz
                    subst hxy'
                    subst hyz'
                    exact Or.inr ⟨ccmp_refl x, ihrest ys zs hr1 hr2⟩
  | h5 k v ih =>
      intro b c
      cases b <;> cases c <;> try simp_all [ccmp]
      rename_i k1 v1 k2 v2
      intro h1 h2
      simp only [ccmp, othen_eq_lt] at h1 h2 ⊢
      rcases h1 with hk1 | ⟨hk1, hv1⟩ <;> rcases h2 with hk2 | ⟨hk2, hv2⟩
      · exact Or.inl (cmpLin_lt_trans hk1 hk2)
      · have : k1 = k2 := cmpLin_eq_iff.mp hk2
        subst this
        exact Or.inl hk1
      · have : k = k1 := cmpLin_eq_iff.mp hk1
        subst this
        exact Or.inl hk2
      · have e1 : k = k1 := cmpLin_eq_iff.mp hk1
        have e2 : k1 = k2 := cmpLin_eq_iff.mp hk2
        subst e1
        subst e2
        exact Or.inr ⟨cmpLin_refl k, ih v1 v2 hv1 hv2⟩

theorem cle_iff {a b : CVal} : cle a b = true ↔ ccmp a b ≠ .gt := by
  unfold cle
  cases ccmp a b <;> simp

theorem cle_trans (a b c : CVal) (h1 : cle a b = true) (h2 : cle b c = true) :
    cle a c = true := by
  rw [cle_iff] at h1 h2 ⊢
  cases hab : ccmp a b with
  | eq =>
      have : a = b := ccmp_eq_of a b hab
      subst this
      exact h2
  | gt => exact absurd hab h1
  | lt =>
      cases hbc : ccmp b c with
      | eq =>
          have : b = c := ccmp_eq_of b c hbc
          subst this
          exact h1
      | gt => exact absurd hbc h2
      | lt =>
          have := ccmp_lt_trans a b c hab hbc
          simp [this]

theorem cle_total (a b : CVal) : (cle a b || cle b a) = true := by
  rw [Bool.or_eq_true, cle_iff, cle_iff]
  cases hab : ccmp a b with
  | lt => left; simp [hab]
  | eq => left; simp [hab]
  | gt =>
      right
      rw [ccmp_swap a b, hab]
      simp [Ordering.swap]

theorem cle_antisymm (a b : CVal) (h1 : cle a b = true) (h2 : cle b a = true) :
    a = b := by
  rw [cle_iff] at h1 h2
  cases hab : ccmp a b with
  | eq => exact ccmp_eq_of a b hab
  | gt => exact absurd hab h1
  | lt =>
      exfalso
      apply h2
      rw [ccmp_swap a b, hab]
      rfl

instance : IsTrans CVal cleP := ⟨cle_trans⟩

instance : IsTotal CVal cleP := ⟨fun a b => by
  have := cle_total a b
  rcases Bool.or_eq_true_iff.mp this with h | h
  · exact Or.inl h
  · exact Or.inr h⟩

instance : IsAntisymm CVal cleP := ⟨cle_antisymm⟩

/-- The canonical sort sends any two lists with the same multiset of
elements to the same sorted list: the total antisymmetric order admits
a unique sorted rearrangement. -/
theorem sortC_eq_of_perm {l₁ l₂ : List CVal} (h : l₁.Perm l₂) :
    sortC l₁ = sortC l₂ :=
  List.eq_of_perm_of_sorted
    ((List.perm_insertionSort cleP l₁).trans
      (h.trans (List.perm_insertionSort cleP l₂).symm))
    (List.sorted_insertionSort cleP l₁)
    (List.sorted_insertionSort cleP l₂)

/-! ## Order-independence of the canonical form -/

/-- A record rearranged at any depth has the same canonical ordered
form: `ordered` absorbs all permutations of mapping entries and
sequence elements. -/
theorem ordered_of_permEq {v w : Val} (h : PermEq v w) :
    ordered v = ordered w := by
  refine @PermEq.rec
    (fun v w _ => ordered v = ordered w)
    (fun xs ys _ => (orderedL xs).Perm (orderedL ys))
    (fun kvs lvs _ => (orderedKV kvs).Perm (orderedKV lvs))
    ?_ ?_ ?_ ?_ ?_ ?_ ?_ ?_ ?_ ?_ ?_ ?_ ?_ ?_ v w h
  · rfl
  · intro b
    rfl
  · intro n
    rfl
  · intro s
    rfl
  · intro xs ys _ hp
    simp only [ordered]
    exact congrArg CVal.arr (sortC_eq_of_perm hp)
  · intro kvs lvs _ hp
    simp only [ordered]
    exact congrArg CVal.arr (sortC_eq_of_perm hp)
  · exact .nil
  · intro x y xs ys _ _ he hp
    simp only [orderedL]
    rw [he]
    exact hp.cons _
  · intro x y xs
    simp only [orderedL]
    exact List.Perm.swap _ _ _
  · intro xs ys zs _ _ p1 p2
    exact p1.trans p2
  · exact .nil
  · intro k v' w' kvs lvs _ _ he hp
    simp only [orderedKV]
    rw [he]
    exact hp.cons _
  · intro kv lv kvs
    rcases kv with ⟨k1, v1⟩
    rcases lv with ⟨k2, v2⟩
    simp only [orderedKV]
    exact List.Perm.swap _ _ _
  · intro kvs lvs mvs _ _ p1 p2
    exact p1.trans p2

/-- `PermEq` is reflexive: any value is a trivial rearrangement of
itself. -/
theorem PermEq.refl : ∀ v : Val, PermEq v v := by
  intro v
  induction v using valInd with
  | h0 => exact .null
  | h1 b => exact .bool b
  | h2 n => exact .num n
  | h3 s => exact .str s
  | h4 xs ih =>
      refine .arr ?_
      induction xs with
      | nil => exact .nil
      | cons x xs ihl =>
          exact .cons (ih x (List.mem_cons_self x xs))
            (ihl (fun z hz => ih z (List.mem_cons_of_mem x hz)))
  | h5 kvs ih =>
      refine .obj ?_
      induction kvs with
      | nil => exact .nil
      | cons kv kvs ihl =>
          rcases kv with ⟨k, v⟩
          exact .cons (ih ⟨k, v⟩ (List.mem_cons_self _ kvs))
            (ihl (fun z hz => ih z (List.mem_cons_of_mem _ hz)))

/-! ## Dictionary lemmas -/

theorem lookupKey_setKey_self (k : String) (v : Val) (d : Rec) :
    lookupKey k (setKey k v d) = some v := by
  induction d with
  | nil => simp [setKey, lookupKey]
  | cons kv d ih =>
      rcases kv with ⟨k', v'⟩
      by_cases h : k' = k
      · simp [setKey, h, lookupKey]
      · simp [setKey, h, lookupKey, ih]

theorem lookupKey_setKey_other {k k' : String} (h : k' ≠ k) (v : Val) (d : Rec) :
    lookupKey k (setKey k' v d) = lookupKey k d := by
  induction d with
  | nil => simp [setKey, lookupKey, h]
  | cons kv d ih =>
      rcases kv with ⟨k'', v''⟩
      by_cases h2 : k'' = k'
      · subst h2
        simp [setKey, lookupKey, h]
      · by_cases h3 : k'' = k
        · have h' : k ≠ k' := fun he => h he.symm
          simp [setKey, lookupKey, h2, h3, h']
        · simp [setKey, lookupKey, h2, h3, ih]

theorem removeKey_cons (k k' : String) (v : Val) (d : Rec) :
    removeKey k ((k', v) :: d) =
      if k' = k then removeKey k d else (k', v) :: removeKey k d := by
  by_cases h : k' = k <;> simp [removeKey, List.filter, h]

theorem lookupKey_removeKey_other {k k' : String} (h : k ≠ k') (d : Rec) :
    lookupKey k (removeKey k' d) = lookupKey k d := by
  induction d with
  | nil => simp [removeKey, lookupKey]
  | cons kv d ih =>
      rcases kv with ⟨k'', v''⟩
      rw [removeKey_cons]
      by_cases h2 : k'' = k'
      · subst h2
        rw [if_pos rfl, ih]
        have : k'' ≠ k := fun he => h he.symm
        simp [lookupKey, this]
      · by_cases h3 : k'' = k
        · simp [h2, lookupKey, h3, h]
        · simp [h2, lookupKey, h3, ih]

theorem removeKey_setKey_self (k : String) (v : Val) (d : Rec) :
    removeKey k (setKey k v d) = removeKey k d := by
  induction d with
  | nil => simp [setKey, removeKey_cons, removeKey]
  | cons kv d ih =>
      rcases kv with ⟨k', v'⟩
      by_cases h : k' = k
      · simp [setKey, h, removeKey_cons]
      · simp [setKey, h, removeKey_cons, ih]

theorem removeKey_comm (k k' : String) (d : Rec) :
    removeKey k (removeKey k' d) = removeKey k' (removeKey k d) := by
  induction d with
  | nil => simp [removeKey]
  | cons kv d ih =>
      rcases kv with ⟨k'', v''⟩
      by_cases h1 : k'' = k' <;> by_cases h2 : k'' = k
      · rw [removeKey_cons, if_pos h1, removeKey_cons, if_pos h2]
        exact ih
      · rw [removeKey_cons, if_pos h1]
        rw [removeKey_cons, if_neg h2]
        rw [removeKey_cons, if_pos h1]
        exact ih
      · rw [removeKey_cons, if_neg h1]
        rw [removeKey_cons, if_pos h2]
        rw [removeKey_cons, if_pos h2]
        exact ih
      · rw [removeKey_cons, if_neg h1]
        rw [removeKey_cons, if_neg h2]
        rw [removeKey_cons, if_neg h2]
        rw [removeKey_cons, if_neg h1]
        rw [ih]

theorem removeKey_idem (k : String) (d : Rec) :
    removeKey k (removeKey k d) = removeKey k d := by
  induction d with
  | nil => simp [removeKey]
  | cons kv d ih =>
      rcases kv with ⟨k'', v''⟩
      by_cases h : k'' = k <;> simp [removeKey_cons, h, ih]

theorem stripMeta_setKey_id (v : Val) (d : Rec) :
    stripMeta (setKey "_id" v d) = stripMeta d := by
  unfold stripMeta
  rw [removeKey_setKey_self]

theorem stripMeta_setKey_md5 (v : Val) (d : Rec) :
    stripMeta (setKey "md5" v d) = stripMeta d := by
  unfold stripMeta
  rw [removeKey_comm, removeKey_setKey_self, removeKey_comm]

theorem stripMeta_removeKey_id (d : Rec) :
    stripMeta (removeKey "_id" d) = stripMeta d := by
  unfold stripMeta
  rw [removeKey_idem]

theorem stripMeta_removeKey_md5 (d : Rec) :
    stripMeta (removeKey "md5" d) = stripMeta d := by
  unfold stripMeta
  rw [removeKey_comm "_id" "md5" d, removeKey_idem]

/-! ## Claims C1 and C2 -/

/-- C1: for every record `r` (a nested structure of mappings, sequences
and scalars) and every permutation of the keys of any mapping or of the
elements of any sequence at any nesting depth inside `r`, the digest
computed by `hash_dict` returns the same hash string for `r` and for
the permuted record. -/
theorem claim_C1_hash_dict_order_independent (r r' : Val) (h : PermEq r r') :
    hash_dict r = hash_dict r' := by
  unfold hash_dict
  rw [ordered_of_permEq h]

/-- Witness for C1 at the spec's concrete scenario: the record
`{"a": 1, "b": {"x": 2, "y": 3}}` and its physically reordered copy
`{"b": {"y": 3, "x": 2}, "a": 1}` hash identically. -/
theorem claim_C1_witness :
    hash_dict (.obj [("a", .num 1), ("b", .obj [("x", .num 2), ("y", .num 3)])])
      = hash_dict (.obj [("b", .obj [("y", .num 3), ("x", .num 2)]), ("a", .num 1)]) :=
  claim_C1_hash_dict_order_independent _ _
    (.obj (PermKV.trans
      (PermKV.cons (.num 1)
        (PermKV.cons (.obj (PermKV.swap ("x", .num 2) ("y", .num 3) [])) .nil))
      (PermKV.swap ("a", .num 1) ("b", .obj [("y", .num 3), ("x", .num 2)]) [])))

/-- C2: the digest of a record (as computed by `commit` and rederived
by `pull`, i.e. `hash_dict` after stripping the reserved fields) is
unaffected by the value of the record's `_id` field and by the presence
or absence of a stale `md5` field: overwriting or inserting either
reserved field, or removing it, leaves the digest unchanged, so any two
records that differ only in those fields share the digest. -/
theorem claim_C2_digest_excludes_id_md5 (d : Rec) (v w : Val) :
    pullDigest (setKey "_id" v d) = pullDigest d ∧
    pullDigest (setKey "md5" w d) = pullDigest d ∧
    pullDigest (removeKey "_id" d) = pullDigest d ∧
    pullDigest (removeKey "md5" d) = pullDigest d := by
  refine ⟨?_, ?_, ?_, ?_⟩ <;> unfold pullDigest
  · rw [stripMeta_setKey_id]
  · rw [stripMeta_setKey_md5]
  · rw [stripMeta_removeKey_id]
  · rw [stripMeta_removeKey_md5]

/-! ## Store lemmas -/

theorem findById_append (cell : List Rec) (s : Rec) (x : Val) :
    findById (cell ++ [s]) x =
      match findById cell x with
      | some r => some r
      | none => if lookupKey "_id" s = some x then some s else none := by
  induction cell with
  | nil => simp [findById]
  | cons r rs ih =>
      by_cases h : lookupKey "_id" r = some x
      · simp [findById, h]
      · simp [findById, h, ih]

theorem findById_replaceById_self {cell : List Rec} {idv : Val} {d s : Rec}
    (hf : findById cell idv = some d) (hs : lookupKey "_id" s = some idv) :
    findById (replaceById idv s cell) idv = some s := by
  induction cell with
  | nil => simp [findById] at hf
  | cons r rs ih =>
      by_cases h : lookupKey "_id" r = some idv
      · simp [replaceById, h, findById, hs]
      · simp only [findById, if_neg h] at hf
        simp [replaceById, h, findById, ih hf]

theorem findById_replaceById_other {cell : List Rec} {idv x : Val} {s : Rec}
    (hx : x ≠ idv) (hs : lookupKey "_id" s = some idv) :
    findById (replaceById idv s cell) x = findById cell x := by
  induction cell with
  | nil => simp [replaceById]
  | cons r rs ih =>
      by_cases h : lookupKey "_id" r = some idv
      · have hrx : lookupKey "_id" r ≠ some x := by
          rw [h]
          intro he
          exact hx (Option.some.inj he).symm
        have hsx : lookupKey "_id" s ≠ some x := by
          rw [hs]
          intro he
          exact hx (Option.some.inj he).symm
        have hix : idv ≠ x := fun he => hx he.symm
        simp [replaceById, h, findById, hrx, hsx, hix]
      · simp [replaceById, h, findById, ih]

theorem findById_of_mem_nodup {cell : List Rec} {d : Rec} {idv : Val}
    (hmem : d ∈ cell) (hid : lookupKey "_id" d = some idv)
    (hnd : (cell.map (lookupKey "_id")).Nodup) : findById cell idv = some d := by
  induction cell with
  | nil => simp at hmem
  | cons r rs ih =>
      rw [List.map_cons, List.nodup_cons] at hnd
      rcases List.mem_cons.mp hmem with he | hm
      · subst he
        simp [findById, hid]
      · have hr : lookupKey "_id" r ≠ some idv := by
          intro he
          apply hnd.1
          rw [he, ← hid]
          exact List.mem_map_of_mem (lookupKey "_id") hm
        simp [findById, hr, ih hm hnd.2]

/-! ## pull: the all-unchanged run -/

/-- The condition under which `pull` classifies an incoming record as
unchanged: the record carries `_id` and a string `md5`, a stored record
with that `_id` exists, its projection is non-empty (so Python's
truthiness test does not mistake it for missing), and its recomputed
digest equals the incoming `md5`. -/
def goodMatch (cell : List Rec) (s : Rec) : Prop :=
  ∃ idv h d, lookupKey "_id" s = some idv ∧
    lookupKey "md5" s = some (.str h) ∧
    findById cell idv = some d ∧ stripMeta d ≠ [] ∧ pullDigest d = h

theorem pullStep_unchanged {st : PullState} {s : Rec}
    (hg : goodMatch st.cell s) :
    pullStep st s = some { st with unchanged := st.unchanged + 1 } := by
  obtain ⟨idv, h, d, h1, h2, h3, h4, h5⟩ := hg
  unfold pullDigest at h5
  simp [pullStep, h1, h2, h3, h4, h5]

theorem pull_all_unchanged : ∀ (snap : List Rec) (st : PullState),
    (∀ s ∈ snap, goodMatch st.cell s) →
    pull st snap = some { st with unchanged := st.unchanged + snap.length }
  | [], st, _ => by simp [pull]
  | s :: rest, st, h => by
      have hs := h s (List.mem_cons_self s rest)
      rw [pull, pullStep_unchanged hs]
      show pull { st with unchanged := st.unchanged + 1 } rest = _
      have hrest := pull_all_unchanged rest
        { st with unchanged := st.unchanged + 1 }
        (fun s' hs' => h s' (List.mem_cons_of_mem s hs'))
      rw [hrest]
      simp only [List.length_cons]
      congr 2
      omega

/-! ## commit lemmas -/

theorem commitRecord_some {d s : Rec} (h : commitRecord d = some s) :
    ∃ idv, lookupKey "_id" d = some idv ∧
      lookupKey "_id" s = some idv ∧
      lookupKey "md5" s = some (.str (pullDigest d)) ∧
      stripMeta d ≠ [] := by
  unfold commitRecord at h
  cases hid : lookupKey "_id" d with
  | none => rw [hid] at h; exact absurd h (by simp)
  | some idv =>
      rw [hid] at h
      simp only at h
      cases hseq : lookupKey "sequence"
          (setKey "_id" idv
            (setKey "md5" (.str (hash_dict (.obj (stripMeta d)))) (stripMeta d))) with
      | none => rw [hseq] at h; exact absurd h (by simp)
      | some sv =>
          rw [hseq] at h
          simp only [Option.some.injEq] at h
          subst h
          refine ⟨idv, rfl, lookupKey_setKey_self _ _ _, ?_, ?_⟩
          · rw [lookupKey_setKey_other (by decide) _ _,
              lookupKey_setKey_self]
            rfl
          · intro he
            rw [lookupKey_setKey_other (by decide) _ _,
              lookupKey_setKey_other (by decide) _ _, he] at hseq
            simp [lookupKey] at hseq

theorem commit_forall₂ : ∀ {cell snap : List Rec}, commit cell = some snap →
    List.Forall₂ (fun d s => commitRecord d = some s) cell snap := by
  intro cell
  induction cell with
  | nil =>
      intro snap h
      unfold commit at h
      simp only [Option.some.injEq] at h
      subst h
      exact .nil
  | cons d ds ih =>
      intro snap h
      unfold commit at h
      cases hc : commitRecord d with
      | none => rw [hc] at h; exact absurd h (by simp)
      | some s =>
          rw [hc] at h
          simp only at h
          cases hrest : commit ds with
          | none => rw [hrest] at h; exact absurd h (by simp)
          | some rest =>
              rw [hrest] at h
              simp only [Option.some.injEq] at h
              subst h
              exact .cons hc (ih hrest)

theorem forall₂_mem_right {R : Rec → Rec → Prop} :
    ∀ {l l' : List Rec}, List.Forall₂ R l l' → ∀ b ∈ l', ∃ a ∈ l, R a b := by
  intro l l' h
  induction h with
  | nil => intro b hb; simp at hb
  | cons hr ht ih =>
      intro b hb
      rcases List.mem_cons.mp hb with he | hm
      · subst he
        exact ⟨_, List.mem_cons_self _ _, hr⟩
      · obtain ⟨a, ha, hab⟩ := ih b hm
        exact ⟨a, List.mem_cons_of_mem _ ha, hab⟩

/-! ## Claim C4: commit/pull round trip -/

/-- C4: for every cell whose commit succeeds (and whose stored `_id`
values are distinct, as the store's uniqueness constraint guarantees),
pulling the snapshot commit produced back into the same unmodified cell
classifies every record as unchanged: zero replaced, zero inserted, and
the cell is not mutated. -/
theorem claim_C4_commit_pull_roundtrip (cell snap : List Rec)
    (hc : commit cell = some snap)
    (hnd : (cell.map (lookupKey "_id")).Nodup) :
    pull ⟨cell, 0, 0, 0⟩ snap = some ⟨cell, snap.length, 0, 0⟩ := by
  have hf := commit_forall₂ hc
  have hgm : ∀ s ∈ snap, goodMatch cell s := by
    intro s hs
    obtain ⟨d, hd, hcr⟩ := forall₂_mem_right hf s hs
    obtain ⟨idv, hid, hsid, hsmd5, hne⟩ := commitRecord_some hcr
    exact ⟨idv, pullDigest d, d, hsid, hsmd5,
      findById_of_mem_nodup hd hid hnd, hne, rfl⟩
  have h := pull_all_unchanged snap ⟨cell, 0, 0, 0⟩ hgm
  simpa using h

/-- Witness for C4: a one-record cell; commit computes the digest
`"sequenceAC"` (the md5 input stream of the stripped record) and the
round-trip pull reports one unchanged record, nothing replaced or
inserted. -/
theorem claim_C4_witness :
    pull ⟨[[("_id", Val.str "i"), ("sequence", Val.str "AC")]], 0, 0, 0⟩
        [[("sequence", Val.str "AC"), ("md5", Val.str "sequenceAC"),
          ("_id", Val.str "i")]]
      = some ⟨[[("_id", Val.str "i"), ("sequence", Val.str "AC")]], 1, 0, 0⟩ :=
  claim_C4_commit_pull_roundtrip _ _ (by decide) (by decide)

/-! ## Claim C3: pull's per-record classification -/

/-- C3 counterexample: a stored record `{"_id": "a", "md5": "x"}` with
no other fields exists under the incoming record's `_id`, yet `pull`
neither recomputes a digest nor classifies the record as unchanged or
replaced: the projection of the stored record is the empty document,
Python's `if not d_old` treats it as missing, and the attempted insert
raises an uncaught `DuplicateKeyError` (the run fails). -/
theorem claim_C3_counterexample :
    findById [[("_id", Val.str "a"), ("md5", Val.str "x")]] (Val.str "a")
        = some [("_id", Val.str "a"), ("md5", Val.str "x")] ∧
    pullStep ⟨[[("_id", Val.str "a"), ("md5", Val.str "x")]], 0, 0, 0⟩
        [("_id", Val.str "a"), ("md5", Val.str "h"), ("x", Val.num 1)]
      = none := by
  constructor
  · decide
  · decide

/-- C3 (amended): for an incoming record carrying `_id` and `md5`:
with no stored record under that `_id`, pull inserts it unchanged and
counts it inserted; with a stored record whose projection (without
`_id`/`md5`) is empty, pull takes the insert path and fails on the
duplicate key; otherwise pull recomputes the stored record's digest and
either counts the record unchanged with no store mutation (digest equal
to the incoming `md5`) or replaces the stored record wholesale with the
incoming one and counts it replaced (digest different). -/
theorem claim_C3_amended_pull_step (st : PullState) (dNew : Rec)
    (idv md5v : Val)
    (hid : lookupKey "_id" dNew = some idv)
    (hmd5 : lookupKey "md5" dNew = some md5v) :
    (findById st.cell idv = none →
      pullStep st dNew
        = some { st with cell := st.cell ++ [dNew],
                         inserted := st.inserted + 1 }) ∧
    (∀ dOld, findById st.cell idv = some dOld →
      (stripMeta dOld = [] → pullStep st dNew = none) ∧
      (stripMeta dOld ≠ [] → md5v = .str (pullDigest dOld) →
        pullStep st dNew = some { st with unchanged := st.unchanged + 1 }) ∧
      (stripMeta dOld ≠ [] → md5v ≠ .str (pullDigest dOld) →
        pullStep st dNew
          = some { st with cell := replaceById idv dNew st.cell,
                           replaced := st.replaced + 1 })) := by
  refine ⟨?_, ?_⟩
  · intro hf
    simp [pullStep, hid, hmd5, hf]
  · intro dOld hf
    refine ⟨?_, ?_, ?_⟩
    · intro he
      simp [pullStep, hid, hmd5, hf, he]
    · intro hne heq
      unfold pullDigest at heq
      simp [pullStep, hid, hmd5, hf, hne, heq]
    · intro hne hneq
      unfold pullDigest at hneq
      simp [pullStep, hid, hmd5, hf, hne, hneq]

/-- Witness for C3 at a concrete input: pulling a record against an
empty cell takes the insert branch. -/
theorem claim_C3_witness :
    pullStep ⟨[], 0, 0, 0⟩ [("_id", Val.str "b"), ("md5", Val.str "m")]
      = some ⟨[[("_id", Val.str "b"), ("md5", Val.str "m")]], 0, 0, 1⟩ :=
  (claim_C3_amended_pull_step ⟨[], 0, 0, 0⟩
    [("_id", Val.str "b"), ("md5", Val.str "m")]
    (Val.str "b") (Val.str "m") (by decide) (by decide)).1 (by decide)

/-! ## Claim C5: pull idempotence -/

/-- C5 counterexample: a legal snapshot record whose `md5` field does
not equal the digest of its own content (here `"bogus"` instead of the
content digest `"x1"`).  The first pull inserts it; the second pull
recomputes the stored digest, finds it different from the record's
`md5`, and replaces: the second run reports `replaced = 1`, not
`replaced = 0` and `unchanged = N`. -/
theorem claim_C5_counterexample :
    pull ⟨[], 0, 0, 0⟩
        [[("_id", Val.str "a"), ("md5", Val.str "bogus"), ("x", Val.num 1)]]
      = some ⟨[[("_id", Val.str "a"), ("md5", Val.str "bogus"),
          ("x", Val.num 1)]], 0, 0, 1⟩ ∧
    pull ⟨[[("_id", Val.str "a"), ("md5", Val.str "bogus"),
          ("x", Val.num 1)]], 0, 0, 0⟩
        [[("_id", Val.str "a"), ("md5", Val.str "bogus"), ("x", Val.num 1)]]
      = some ⟨[[("_id", Val.str "a"), ("md5", Val.str "bogus"),
          ("x", Val.num 1)]], 0, 1, 0⟩ := by
  constructor
  · decide
  · decide

/-- A snapshot record that reconciles stably: it carries `_id` and a
string `md5` equal to the digest of its own non-reserved content, and
that content is non-empty. -/
def goodSnap (s : Rec) : Prop :=
  ∃ idv h, lookupKey "_id" s = some idv ∧
    lookupKey "md5" s = some (.str h) ∧ pullDigest s = h ∧ stripMeta s ≠ []

/-- The stored record under `idv`, if any, is non-empty after
projection and carries digest `h`. -/
def storedMatch (cell : List Rec) (idv : Val) (h : String) : Prop :=
  ∃ d, findById cell idv = some d ∧ stripMeta d ≠ [] ∧ pullDigest d = h

theorem pullStep_preserve {st st' : PullState} {s : Rec} {idv x : Val}
    (hid : lookupKey "_id" s = some idv) (hx : x ≠ idv)
    (hstep : pullStep st s = some st') :
    findById st'.cell x = findById st.cell x := by
  cases hmd5 : lookupKey "md5" s with
  | none => simp [pullStep, hid, hmd5] at hstep
  | some md5v =>
      have hsx : lookupKey "_id" s ≠ some x := by
        rw [hid]
        intro he
        exact hx (Option.some.inj he).symm
      cases hf : findById st.cell idv with
      | none =>
          simp [pullStep, hid, hmd5, hf] at hstep
          subst hstep
          cases hfx : findById st.cell x <;>
            simp [findById_append, hfx, hsx]
      | some dOld =>
          by_cases he : stripMeta dOld = []
          · simp [pullStep, hid, hmd5, hf, he] at hstep
          · by_cases heq : md5v = Val.str (hash_dict (.obj (stripMeta dOld)))
            · simp [pullStep, hid, hmd5, hf, he, heq] at hstep
              subst hstep
              rfl
            · simp [pullStep, hid, hmd5, hf, he, heq] at hstep
              subst hstep
              exact findById_replaceById_other hx hid

theorem pull_preserve : ∀ {snap : List Rec} {st st' : PullState} {x : Val},
    pull st snap = some st' →
    (∀ s ∈ snap, ∃ idv, lookupKey "_id" s = some idv ∧ x ≠ idv) →
    findById st'.cell x = findById st.cell x := by
  intro snap
  induction snap with
  | nil =>
      intro st st' x h _
      unfold pull at h
      simp only [Option.some.injEq] at h
      subst h
      rfl
  | cons s rest ih =>
      intro st st' x h hall
      unfold pull at h
      cases hstep : pullStep st s with
      | none => rw [hstep] at h; exact absurd h (by simp)
      | some st₁ =>
          rw [hstep] at h
          simp only at h
          obtain ⟨idv, hid, hx⟩ := hall s (List.mem_cons_self s rest)
          have h1 := pullStep_preserve hid hx hstep
          have h2 := ih h (fun s' hs' => hall s' (List.mem_cons_of_mem s hs'))
          exact h2.trans h1

theorem pullStep_establish {st : PullState} {s : Rec} {idv : Val} {h : String}
    (hid : lookupKey "_id" s = some idv)
    (hmd5 : lookupKey "md5" s = some (.str h))
    (hdig : pullDigest s = h) (hne : stripMeta s ≠ [])
    (hstored : ∀ d, findById st.cell idv = some d → stripMeta d ≠ []) :
    ∃ st', pullStep st s = some st' ∧ storedMatch st'.cell idv h := by
  cases hf : findById st.cell idv with
  | none =>
      refine ⟨{ st with cell := st.cell ++ [s], inserted := st.inserted + 1 },
        ?_, ?_⟩
      · simp [pullStep, hid, hmd5, hf]
      · refine ⟨s, ?_, hne, hdig⟩
        rw [findById_append, hf]
        simp [hid]
  | some dOld =>
      have hne' := hstored dOld hf
      by_cases heq : (Val.str h) = .str (hash_dict (.obj (stripMeta dOld)))
      · refine ⟨{ st with unchanged := st.unchanged + 1 }, ?_, ?_⟩
        · simp [pullStep, hid, hmd5, hf, hne', heq]
        · exact ⟨dOld, hf, hne', (Val.str.inj heq).symm⟩
      · refine ⟨{ st with
                    cell := replaceById idv s st.cell,
                    replaced := st.replaced + 1 }, ?_, ?_⟩
        · simp [pullStep, hid, hmd5, hf, hne', heq]
          exact fun hh => heq (congrArg Val.str hh)
        · exact ⟨s, findById_replaceById_self hf hid, hne, hdig⟩

theorem pull_establish : ∀ (snap : List Rec) (st : PullState),
    (∀ s ∈ snap, goodSnap s) →
    (snap.map (lookupKey "_id")).Nodup →
    (∀ s ∈ snap, ∀ idv, lookupKey "_id" s = some idv →
      ∀ d, findById st.cell idv = some d → stripMeta d ≠ []) →
    ∃ st', pull st snap = some st' ∧ ∀ s ∈ snap, goodMatch st'.cell s
  | [], st, _, _, _ => ⟨st, by simp [pull], by simp⟩
  | s :: rest, st, hg, hnd, hstored => by
      obtain ⟨idv, h, hid, hmd5, hdig, hne⟩ := hg s (List.mem_cons_self s rest)
      obtain ⟨st₁, hstep, hpost⟩ := pullStep_establish hid hmd5 hdig hne
        (fun d hd => hstored s (List.mem_cons_self s rest) idv hid d hd)
      rw [List.map_cons, List.nodup_cons] at hnd
      have hdist : ∀ s' ∈ rest, ∀ idv', lookupKey "_id" s' = some idv' →
          idv' ≠ idv := by
        intro s' hs' idv' hid' he
        apply hnd.1
        rw [hid, ← he, ← hid']
        exact List.mem_map_of_mem (lookupKey "_id") hs'
      have hstored₁ : ∀ s' ∈ rest, ∀ idv', lookupKey "_id" s' = some idv' →
          ∀ d, findById st₁.cell idv' = some d → stripMeta d ≠ [] := by
        intro s' hs' idv' hid' d hd
        rw [pullStep_preserve hid (hdist s' hs' idv' hid') hstep] at hd
        exact hstored s' (List.mem_cons_of_mem s hs') idv' hid' d hd
      obtain ⟨st', hpull, hall⟩ := pull_establish rest st₁
        (fun s' hs' => hg s' (List.mem_cons_of_mem s hs')) hnd.2 hstored₁
      refine ⟨st', ?_, ?_⟩
      · rw [pull, hstep]
        exact hpull
      · intro s' hs'
        rcases List.mem_cons.mp hs' with he | hm
        · subst he
          have hpres : findById st'.cell idv = findById st₁.cell idv :=
            pull_preserve hpull (fun s'' hs'' => by
              obtain ⟨idv'', h'', hid'', _, _, _⟩ :=
                hg s'' (List.mem_cons_of_mem s' hs'')
              exact ⟨idv'', hid'', (hdist s'' hs'' idv'' hid'').symm⟩)
          obtain ⟨d, hfd, hned, hdigd⟩ := hpost
          exact ⟨idv, h, d, hid, hmd5, hpres.trans hfd, hned, hdigd⟩
        · exact hall s' hm

/-- C5 (amended): running `pull` twice with the same snapshot from any
starting cell yields, on the second run, `replaced = 0`, `inserted = 0`
and `unchanged = N`, provided the snapshot is well formed for
reconciliation: each record carries `_id` and a string `md5` equal to
the digest of its own non-reserved content, that content is non-empty,
the snapshot's `_id` values are distinct, and no stored record matching
a snapshot `_id` projects to the empty document (which `pull`'s
truthiness test would treat as missing, crashing on the insert).
Without the `md5`-correctness hypothesis the claim fails, as the
counterexample shows. -/
theorem claim_C5_amended_pull_idempotent (snap cell : List Rec)
    (hg : ∀ s ∈ snap, goodSnap s)
    (hnd : (snap.map (lookupKey "_id")).Nodup)
    (hstored : ∀ s ∈ snap, ∀ idv, lookupKey "_id" s = some idv →
      ∀ d, findById cell idv = some d → stripMeta d ≠ []) :
    ∃ st₁, pull ⟨cell, 0, 0, 0⟩ snap = some st₁ ∧
      pull ⟨st₁.cell, 0, 0, 0⟩ snap = some ⟨st₁.cell, snap.length, 0, 0⟩ := by
  obtain ⟨st₁, h1, hall⟩ := pull_establish snap ⟨cell, 0, 0, 0⟩ hg hnd hstored
  refine ⟨st₁, h1, ?_⟩
  have h2 := pull_all_unchanged snap ⟨st₁.cell, 0, 0, 0⟩ (fun s hs => hall s hs)
  simpa using h2

/-- Witness for C5 at a concrete input: one well-formed record (its
`md5` field `"x1"` is the digest of its content `{"x": 1}`) pulled
twice into an initially empty cell; the second run reports one
unchanged record. -/
theorem claim_C5_witness :
    ∃ st₁, pull ⟨[], 0, 0, 0⟩
        [[("_id", Val.str "a"), ("md5", Val.str "x1"), ("x", Val.num 1)]]
        = some st₁ ∧
      pull ⟨st₁.cell, 0, 0, 0⟩
        [[("_id", Val.str "a"), ("md5", Val.str "x1"), ("x", Val.num 1)]]
        = some ⟨st₁.cell, 1, 0, 0⟩ :=
  claim_C5_amended_pull_idempotent
    [[("_id", Val.str "a"), ("md5", Val.str "x1"), ("x", Val.num 1)]] []
    (by
      intro s hs
      simp only [List.mem_singleton] at hs
      subst hs
      exact ⟨Val.str "a", "x1", by decide, by decide, by decide, by decide⟩)
    (by decide)
    (by
      intro s hs idv hid d hd
      simp [findById] at hd)

/-! ## Claim C6: duplicate-key recovery in add -/

/-- C6 counterexample: the legacy `add` of src/zoo/cli_cell.py hits a
duplicate key on its first line and aborts the whole run — the second
(fresh) record is never inserted, no duplicate tally is kept, and the
operation fails — instead of skipping, counting and continuing. -/
theorem claim_C6_counterexample :
    add_legacy [[("_id", Val.str "a")]]
        [[("_id", Val.str "a")], [("_id", Val.str "b")]]
      = ([[("_id", Val.str "a")]], true) := by
  decide

theorem addById_counts : ∀ (lines cell : List Rec) (i u : Nat),
    (addById cell lines i u).2.1 + (addById cell lines i u).2.2
      = i + u + lines.length
  | [], cell, i, u => by simp [addById]
  | d :: rest, cell, i, u => by
      unfold addById
      cases h : insertOne cell d with
      | ok cell' =>
          rw [addById_counts rest cell' (i + 1) u]
          simp only [List.length_cons]
          omega
      | error e =>
          rw [addById_counts rest cell i (u + 1)]
          simp only [List.length_cons]
          omega

/-- C6 (amended): in the cell CLI's `add` (src/zoo/cli/cell.py): with
the default `primkey == '_id'`, a duplicate-key violation on a record
is recovered locally — the record is skipped leaving the cell as it
was, the duplicate count is incremented, and processing continues with
the remaining lines — and that branch never fails, always returning
tallies with inserted + duplicates equal to the number of lines
processed.  With a configured non-`_id` primkey, a record whose key
value matches a stored record is likewise counted as a duplicate,
skipped, and processing continues; but a `DuplicateKeyError` raised by
`insert_one` itself (cell.py line 124, e.g. an `_id` collision on a
record whose primkey matched nothing) is not caught and aborts the
run.  The legacy `add` of src/zoo/cli_cell.py does not satisfy the
claim at all: it aborts the run at the first duplicate (see the
counterexample). -/
theorem claim_C6_amended_add_duplicate_recovery :
    (∀ (cell : List Rec) (d : Rec) (rest : List Rec) (ins dup : Nat),
      insertOne cell d = .error () →
      addById cell (d :: rest) ins dup = addById cell rest ins (dup + 1)) ∧
    (∀ (lines c : List Rec) (i u : Nat),
      (addById c lines i u).2.1 + (addById c lines i u).2.2
        = i + u + lines.length) ∧
    (∀ (pk : String) (cell : List Rec) (d : Rec) (rest : List Rec)
        (ins dup : Nat),
      (find_one_pk cell pk (deep_get d pk)).isSome = true →
      addByKey pk cell (d :: rest) ins dup
        = addByKey pk cell rest ins (dup + 1)) ∧
    (∀ (pk : String) (cell : List Rec) (d : Rec) (rest : List Rec)
        (ins dup : Nat),
      (find_one_pk cell pk (deep_get d pk)).isSome = false →
      insertOne cell d = .error () →
      addByKey pk cell (d :: rest) ins dup = none) := by
  refine ⟨?_, ?_, ?_, ?_⟩
  · intro cell d rest ins dup hdup
    have h1 : addById cell (d :: rest) ins dup =
        match insertOne cell d with
        | .ok cell' => addById cell' rest (ins + 1) dup
        | .error _ => addById cell rest ins (dup + 1) := rfl
    rw [h1, hdup]
  · exact fun lines c i u => addById_counts lines c i u
  · intro pk cell d rest ins dup hdup
    have h1 : addByKey pk cell (d :: rest) ins dup =
        if (find_one_pk cell pk (deep_get d pk)).isSome then
          addByKey pk cell rest ins (dup + 1)
        else
          match insertOne cell d with
          | .ok cell' => addByKey pk cell' rest (ins + 1) dup
          | .error _ => none := rfl
    rw [h1, if_pos hdup]
  · intro pk cell d rest ins dup hfind herr
    have h1 : addByKey pk cell (d :: rest) ins dup =
        if (find_one_pk cell pk (deep_get d pk)).isSome then
          addByKey pk cell rest ins (dup + 1)
        else
          match insertOne cell d with
          | .ok cell' => addByKey pk cell' rest (ins + 1) dup
          | .error _ => none := rfl
    rw [h1, if_neg (by simp [hfind]), herr]

/-- Witness for C6 at concrete inputs: in the default branch a
duplicate of the only stored record is skipped with the duplicate
tally incremented and the next line still processed, and the tallies
sum to the line count; in the keyed branch a record matching a stored
record's key is counted as a duplicate, while a record whose key
matches nothing but whose `_id` collides aborts the run. -/
theorem claim_C6_witness :
    (addById [[("_id", Val.str "a")]]
        ([[("_id", Val.str "a")], [("_id", Val.str "b")]]) 0 0
      = addById [[("_id", Val.str "a")]] [[("_id", Val.str "b")]] 0 1) ∧
    ((addById [] [[("_id", Val.str "a")], [("_id", Val.str "b")]] 0 0).2.1
        + (addById [] [[("_id", Val.str "a")], [("_id", Val.str "b")]] 0 0).2.2
      = 0 + 0 + [[("_id", Val.str "a")], [("_id", Val.str "b")]].length) ∧
    (addByKey "k" [[("k", Val.num 1), ("_id", Val.str "a")]]
        [[("k", Val.num 1), ("_id", Val.str "c")]] 0 0
      = addByKey "k" [[("k", Val.num 1), ("_id", Val.str "a")]] [] 0 1) ∧
    (addByKey "k" [[("k", Val.num 1), ("_id", Val.str "a")]]
        [[("k", Val.num 2), ("_id", Val.str "a")]] 0 0 = none) :=
  ⟨claim_C6_amended_add_duplicate_recovery.1 [[("_id", Val.str "a")]]
      [("_id", Val.str "a")] [[("_id", Val.str "b")]] 0 0 (by rfl),
   claim_C6_amended_add_duplicate_recovery.2.1
      [[("_id", Val.str "a")], [("_id", Val.str "b")]] [] 0 0,
   claim_C6_amended_add_duplicate_recovery.2.2.1 "k"
      [[("k", Val.num 1), ("_id", Val.str "a")]]
      [("k", Val.num 1), ("_id", Val.str "c")] [] 0 0 (by rfl),
   claim_C6_amended_add_duplicate_recovery.2.2.2 "k"
      [[("k", Val.num 1), ("_id", Val.str "a")]]
      [("k", Val.num 2), ("_id", Val.str "a")] [] 0 0 (by rfl) (by rfl)⟩

/-! ## Claim C7: diff -/

theorem length_filterMap_countP {α β : Type} (f : α → Option β)
    (l : List α) :
    (l.filterMap f).length = l.countP (fun a => (f a).isSome) := by
  induction l with
  | nil => rfl
  | cons a l ih =>
      cases h : f a <;>
        simp [List.filterMap_cons, h, List.countP_cons, ih]

/-- C7: for every snapshot diffed against a live cell (each line
carrying `_id`), and for any delta collaborator `dd` (DeepDiff) that
reports an empty delta on identical documents, the output contains
exactly the deltas of the records whose computed delta against their
live record is non-empty — one entry per such record, tagged with its
`_id`, in input order — its length is the number of records with a
non-empty delta, and a record identical to its live counterpart
contributes no entry.  The embedding of `diff` only reads the cell
(`find_one`) and never produces a mutated store or snapshot. -/
theorem claim_C7_diff_output {δ : Type} (dd : Option Rec → Rec → Option δ)
    (cell lines : List Rec)
    (hids : ∀ old ∈ lines, (lookupKey "_id" old).isSome)
    (hdd : ∀ r, dd (some r) r = none) :
    diffOp dd cell lines = some (lines.filterMap (fun old =>
      (lookupKey "_id" old).bind (fun idv =>
        (dd (findById cell idv) old).map (fun d => (idv, d))))) ∧
    (lines.filterMap (fun old =>
      (lookupKey "_id" old).bind (fun idv =>
        (dd (findById cell idv) old).map (fun d => (idv, d))))).length
      = lines.countP (fun old =>
          ((lookupKey "_id" old).bind (fun idv =>
            (dd (findById cell idv) old).map (fun d => (idv, d)))).isSome) ∧
    (∀ old ∈ lines, ∀ idv, lookupKey "_id" old = some idv →
      findById cell idv = some old →
      (dd (findById cell idv) old).map (fun d => (idv, d)) = none) := by
  refine ⟨?_, length_filterMap_countP _ lines, ?_⟩
  · induction lines with
    | nil => rfl
    | cons old rest ih =>
        have hid := hids old (List.mem_cons_self old rest)
        obtain ⟨idv, hidv⟩ := Option.isSome_iff_exists.mp hid
        have ihh := ih (fun o ho => hids o (List.mem_cons_of_mem old ho))
        unfold diffOp
        rw [hidv, ihh]
        cases hdelta : dd (findById cell idv) old <;>
          simp [List.filterMap_cons, hidv, hdelta]
  · intro old hold idv hidv hfind
    rw [hfind, hdd old]
    rfl

/-- Witness for C7: a two-line snapshot against a one-record cell,
with the delta collaborator `dd` that reports the pair of compared
documents unless they are equal: the identical record contributes
nothing, the differing record yields exactly one tagged entry. -/
theorem claim_C7_witness :
    (diffOp (fun x y => if x = some y then none else some (x, y))
        [[("_id", Val.str "a"), ("v", Val.num 1)]]
        [[("_id", Val.str "a"), ("v", Val.num 1)],
         [("_id", Val.str "b"), ("v", Val.num 2)]]
      = some [(Val.str "b",
          (none, [("_id", Val.str "b"), ("v", Val.num 2)]))]) ∧
    ([(Val.str "b", ((none : Option Rec),
        [("_id", Val.str "b"), ("v", Val.num 2)]))].length = 1) ∧
    (∀ old ∈ [[("_id", Val.str "a"), ("v", Val.num 1)],
         [("_id", Val.str "b"), ("v", Val.num 2)]],
      ∀ idv, lookupKey "_id" old = some idv →
      findById [[("_id", Val.str "a"), ("v", Val.num 1)]] idv = some old →
      ((fun (x : Option Rec) (y : Rec) =>
          if x = some y then none else some (x, y))
        (findById [[("_id", Val.str "a"), ("v", Val.num 1)]] idv) old).map
          (fun d => (idv, d)) = none) := by
  have h := claim_C7_diff_output
    (fun (x : Option Rec) (y : Rec) => if x = some y then none else some (x, y))
    [[("_id", Val.str "a"), ("v", Val.num 1)]]
    [[("_id", Val.str "a"), ("v", Val.num 1)],
     [("_id", Val.str "b"), ("v", Val.num 2)]]
    (by decide)
    (fun r => by simp)
  refine ⟨?_, by decide, h.2.2⟩
  have h1 := h.1
  rw [h1]
  rfl

/-! ## Claim C8: add with a non-resolving primkey path -/

/-- C8 counterexample: an incoming record on which the primkey path
`genbank.a` does not resolve, but whose `_id` collides with a stored
record.  The keyed lookup misses, so `add` takes the insert path, and
`insert_one` raises an uncaught `DuplicateKeyError` (cell.py line
124): the run aborts and the record is not inserted, refuting "is
always inserted". -/
theorem claim_C8_counterexample :
    deep_get [("_id", Val.str "a"), ("x", Val.num 2)] "genbank.a" = none ∧
    addByKey "genbank.a" [[("_id", Val.str "a"), ("g", Val.num 1)]]
        [[("_id", Val.str "a"), ("x", Val.num 2)]] 0 0 = none := by
  constructor
  · rfl
  · rfl

/-- C8 (amended): in `add` with a configured non-`_id` primkey, an
incoming record on which the primkey path does not resolve is treated
as non-matching — the duplicate lookup finds nothing, so the record is
never counted as a duplicate — and `add` attempts to insert it: when
the store accepts the insert, the record is inserted and processing
continues on the updated cell; when `insert_one` itself raises a
`DuplicateKeyError` (an `_id` collision with a stored record), the
error is not caught, the run aborts, and the record is not inserted. -/
theorem claim_C8_amended_missing_primkey (pk : String) (cell : List Rec)
    (d : Rec) (rest : List Rec) (ins dup : Nat)
    (hpk : deep_get d pk = none) :
    find_one_pk cell pk (deep_get d pk) = none ∧
    (insertOne cell d = .ok (cell ++ [d]) →
      addByKey pk cell (d :: rest) ins dup
        = addByKey pk (cell ++ [d]) rest (ins + 1) dup) ∧
    (insertOne cell d = .error () →
      addByKey pk cell (d :: rest) ins dup = none) := by
  have h1 : addByKey pk cell (d :: rest) ins dup =
      if (find_one_pk cell pk (deep_get d pk)).isSome then
        addByKey pk cell rest ins (dup + 1)
      else
        match insertOne cell d with
        | .ok cell' => addByKey pk cell' rest (ins + 1) dup
        | .error _ => none := rfl
  have hfind : find_one_pk cell pk (deep_get d pk) = none := by
    rw [hpk]
    rfl
  refine ⟨hfind, ?_, ?_⟩
  · intro hins
    rw [h1, hfind]
    simp only [Option.isSome_none, Bool.false_eq_true, if_false]
    rw [hins]
  · intro herr
    rw [h1, hfind]
    simp only [Option.isSome_none, Bool.false_eq_true, if_false]
    rw [herr]

/-- Witness for C8: a record without the `genbank.a` path against an
empty cell — the duplicate lookup finds nothing, and the record is
inserted with the inserted tally incremented, not counted as a
duplicate. -/
theorem claim_C8_witness :
    find_one_pk [] "genbank.a" (deep_get [("x", Val.num 1)] "genbank.a")
        = none ∧
    addByKey "genbank.a" [] [[("x", Val.num 1)]] 0 0
      = addByKey "genbank.a" [[("x", Val.num 1)]] [] 1 0 :=
  have h := claim_C8_amended_missing_primkey "genbank.a" [] [("x", Val.num 1)]
    [] 0 0 (by decide)
  ⟨h.1, h.2.1 (by rfl)⟩

/-! ## Claim C9: init discards incoming identifiers -/

/-- The records `init` inserts: each input line with its `_id` set to
the next identifier drawn from the stream. -/
def initOut (uuids : Nat → String) (i : Nat) : List Rec → List Rec
  | [] => []
  | d :: ds => initRecord (uuids i) d :: initOut uuids (i + 1) ds

theorem insertOne_ok {cell : List Rec} {d : Rec} {cell' : List Rec}
    (h : insertOne cell d = .ok cell') : cell' = cell ++ [d] := by
  unfold insertOne at h
  cases hid : lookupKey "_id" d with
  | none =>
      rw [hid] at h
      exact (Except.ok.inj h).symm
  | some idv =>
      rw [hid] at h
      by_cases hf : (findById cell idv).isSome
      · simp [hf] at h
      · simp [hf] at h
        exact h.symm

theorem init_shape : ∀ (lines : List Rec) (uuids : Nat → String)
    (cell cell' : List Rec) (i n : Nat),
    init uuids cell lines i = some (cell', n) →
    n = i + lines.length ∧ cell' = cell ++ initOut uuids i lines
  | [], uuids, cell, cell', i, n => by
      intro h
      unfold init at h
      simp only [Option.some.injEq, Prod.mk.injEq] at h
      refine ⟨h.2.symm, ?_⟩
      rw [← h.1]
      simp [initOut]
  | d :: ds, uuids, cell, cell', i, n => by
      intro h
      unfold init at h
      cases hio : insertOne cell (initRecord (uuids i) d) with
      | error e => rw [hio] at h; exact absurd h (by simp)
      | ok c' =>
          rw [hio] at h
          obtain ⟨hn, hc⟩ := init_shape ds uuids c' cell' (i + 1) n h
          have hc' := insertOne_ok hio
          subst hc'
          refine ⟨by rw [hn]; simp only [List.length_cons]; omega, ?_⟩
          rw [hc, initOut, List.append_assoc]
          rfl

/-- C9: every record line processed by `init` is inserted with a
freshly generated identifier from the UUID stream assigned to its
`_id` field: the resulting cell is the old cell followed by the
transformed lines, the reported count is the number of lines, and the
`_id` of a transformed record is the drawn identifier regardless of
any `_id` the input carried (`initRecord` overwrites it in place), so
identifiers carried by the input snapshot are always discarded. -/
theorem claim_C9_init_overwrites_id (uuids : Nat → String)
    (lines cell cell' : List Rec) (n : Nat) (u : String) (d : Rec)
    (h : init uuids cell lines 0 = some (cell', n)) :
    n = lines.length ∧ cell' = cell ++ initOut uuids 0 lines ∧
    lookupKey "_id" (initRecord u d) = some (.str u) := by
  obtain ⟨hn, hc⟩ := init_shape lines uuids cell cell' 0 n h
  exact ⟨by omega, hc, lookupKey_setKey_self "_id" (.str u) d⟩

/-- Witness for C9: a line carrying `_id` `"old"` is inserted with the
drawn identifier `"u"` instead; the incoming identifier is gone. -/
theorem claim_C9_witness :
    (1 = [[("_id", Val.str "old"), ("a", Val.num 1)]].length) ∧
    ([[("_id", Val.str "u"), ("a", Val.num 1)]]
      = [] ++ initOut (fun _ => "u") 0
          [[("_id", Val.str "old"), ("a", Val.num 1)]]) ∧
    lookupKey "_id" (initRecord "u" [("_id", Val.str "old"), ("a", Val.num 1)])
      = some (.str "u") :=
  claim_C9_init_overwrites_id (fun _ => "u")
    [[("_id", Val.str "old"), ("a", Val.num 1)]] []
    [[("_id", Val.str "u"), ("a", Val.num 1)]] 1 "u"
    [("_id", Val.str "old"), ("a", Val.num 1)] (by rfl)

/-! ## Claim C10: commit requires a sequence field -/

theorem commitRecord_isSome_iff (d : Rec) :
    (commitRecord d).isSome
      ↔ (lookupKey "_id" d).isSome ∧ (lookupKey "sequence" d).isSome := by
  unfold commitRecord
  cases hid : lookupKey "_id" d with
  | none => simp
  | some idv =>
      have hseq : lookupKey "sequence"
          (setKey "_id" idv
            (setKey "md5" (.str (hash_dict (.obj (stripMeta d))))
              (stripMeta d)))
          = lookupKey "sequence" d := by
        rw [lookupKey_setKey_other (by decide), lookupKey_setKey_other (by decide)]
        unfold stripMeta
        rw [lookupKey_removeKey_other (by decide),
          lookupKey_removeKey_other (by decide)]
      simp only [hseq]
      cases lookupKey "sequence" d <;> simp

/-- C10: `commit` reads `d['sequence']` of every record to feed the
aggregate minhash, so it raises a key lookup error at the first stored
record without a `sequence` field; over a cell whose records all carry
`_id` (the store assigns it), commit succeeds exactly when every stored
record has a `sequence` field. -/
theorem claim_C10_commit_requires_sequence (cell : List Rec)
    (hid : ∀ r ∈ cell, (lookupKey "_id" r).isSome) :
    (commit cell).isSome ↔ ∀ r ∈ cell, (lookupKey "sequence" r).isSome := by
  induction cell with
  | nil => simp [commit]
  | cons d ds ih =>
      have hd := hid d (List.mem_cons_self d ds)
      have ihh := ih (fun r hr => hid r (List.mem_cons_of_mem d hr))
      unfold commit
      cases hcr : commitRecord d with
      | none =>
          have hnot : ¬ (lookupKey "sequence" d).isSome := by
            intro hseq
            have := (commitRecord_isSome_iff d).mpr ⟨hd, hseq⟩
            rw [hcr] at this
            simp at this
          simp only [Option.isSome_none, Bool.false_eq_true, false_iff]
          intro hall
          exact hnot (hall d (List.mem_cons_self d ds))
      | some s =>
          have hdseq : (lookupKey "sequence" d).isSome :=
            ((commitRecord_isSome_iff d).mp (by simp [hcr])).2
          cases hc : commit ds with
          | none =>
              simp only [Option.isSome_none, Bool.false_eq_true, false_iff]
              intro hall
              have : (commit ds).isSome :=
                ihh.mpr (fun r hr => hall r (List.mem_cons_of_mem d hr))
              rw [hc] at this
              simp at this
          | some rest =>
              simp only [Option.isSome_some, true_iff]
              intro r hr
              rcases List.mem_cons.mp hr with he | hm
              · subst he
                exact hdseq
              · exact (ihh.mp (by simp [hc])) r hm

/-- Witness for C10: a one-record cell carrying `_id` and `sequence`;
commit succeeds, matching the right side of the equivalence. -/
theorem claim_C10_witness :
    (commit [[("_id", Val.str "i"), ("sequence", Val.str "A")]]).isSome
      ↔ ∀ r ∈ [[("_id", Val.str "i"), ("sequence", Val.str "A")]],
          (lookupKey "sequence" r).isSome :=
  claim_C10_commit_requires_sequence
    [[("_id", Val.str "i"), ("sequence", Val.str "A")]] (by decide)
